import Mathlib

/-!
Verification of the deterministic core of the resume-builder pipeline
(`prompts.py`): skill-list merging, relevance sorting, date arithmetic,
job-post parsing state, improvement-report assembly, and experience
rewriting.  LLM chains are modelled as opaque function parameters, since
the specification treats the model as a black-box capability.  Python
floats are modelled as rationals, Python dicts as structures, and raised
exceptions as `Except` values.
-/

/-! ### String helpers

Python `str.lower()` restricted to the ASCII strings that occur in the
resume data; `Char.toLower` performs exactly the ASCII case mapping. -/

/-- Model of Python `s.lower()` (ASCII). -/
def pyLower (s : String) : String := ⟨s.data.map Char.toLower⟩

deriving instance DecidableEq for Except

/-! ### Skill category merging (`Resume_Builder._combine_skills_in_category`,
`Resume_Builder._combine_skill_lists`) -/

/-- One entry of a skills list: the Python dict `{"category": ..., "skills": [...]}`. -/
structure SkillCat where
  category : String
  skills : List String
deriving DecidableEq, Repr

/-- Model of the set comprehension `{i.lower() for i in l1}` in
`_combine_skills_in_category`; membership in this list is membership in the set. -/
def lowerSet (l : List String) : List String := l.map pyLower

/-- Loop of `_combine_skills_in_category`: walk `l2`, appending each item whose
lowercase form is not in the precomputed set `l1Lower`. -/
def combineSkillsGo (l1Lower : List String) (acc : List String) : List String → List String
  | [] => acc
  | i :: rest =>
      if l1Lower.contains (pyLower i) then combineSkillsGo l1Lower acc rest
      else combineSkillsGo l1Lower (acc ++ [i]) rest

/-- Model of `Resume_Builder._combine_skills_in_category(l1, l2)`: combines `l2`
into `l1` without lowercase duplicates, checking against the set of lowercase
items of the original `l1` only. -/
def combine_skills_in_category (l1 l2 : List String) : List String :=
  combineSkillsGo (lowerSet l1) l1 l2

/-- Model of the dict comprehension
`{s["category"].lower(): i for i, s in enumerate(l1)}` looked up at key `n`:
the greatest index of `l1` whose lowercase category equals `n` (later entries
overwrite earlier ones in the dict). -/
def lastIdxOf (l : List SkillCat) (n : String) : Option Nat :=
  match l with
  | [] => none
  | c :: rest =>
      match lastIdxOf rest n with
      | some j => some (j + 1)
      | none => if pyLower c.category == n then some 0 else none

/-- In-place update `l[i] = f(l[i])` of a Python list, identity out of range. -/
def modifyIdx (f : α → α) : Nat → List α → List α
  | _, [] => []
  | 0, x :: xs => f x :: xs
  | n + 1, x :: xs => x :: modifyIdx f n xs

/-- Model of `Resume_Builder._combine_skill_lists(l1, l2)`: fold over `l2`; a
category whose lowercase name is a key of the precomputed index dict of `l1`
is merged into the indexed entry of the evolving list, any other category is
appended whole. -/
def combine_skill_lists (l1 l2 : List SkillCat) : List SkillCat :=
  l2.foldl
    (fun acc s =>
      match lastIdxOf l1 (pyLower s.category) with
      | some i =>
          modifyIdx (fun c => { c with skills := combine_skills_in_category c.skills s.skills }) i acc
      | none => acc ++ [s])
    l1

/-! ### Combinators used to state what the merge does -/

/-- Does some category of `l` have lowercase name `n`. -/
def hasName (n : String) (l : List SkillCat) : Bool :=
  l.any (fun c => pyLower c.category == n)

/-- Closed form of `combine_skills_in_category`: append the items of `l2` not
lowercase-present in the original `l1`. -/
def cmb (l1 l2 : List String) : List String :=
  l1 ++ l2.filter (fun i => !(lowerSet l1).contains (pyLower i))

/-- Skill lists of the categories of `b` whose lowercase name is `n`, in order. -/
def bucket (n : String) (b : List SkillCat) : List (List String) :=
  (b.filter (fun s => pyLower s.category == n)).map SkillCat.skills

/-- Pointwise update of a category list: the last category of each lowercase
name `n` has the skill lists `f n` folded into its skills; all other entries
are untouched. -/
def updCats (f : String → List (List String)) : List SkillCat → List SkillCat
  | [] => []
  | c :: rest =>
      (if hasName (pyLower c.category) rest then c
       else { c with skills := (f (pyLower c.category)).foldl cmb c.skills }) :: updCats f rest

/-- Categories of `b` whose lowercase name does not occur in `a`. -/
def newCats (a b : List SkillCat) : List SkillCat :=
  b.filter (fun s => !hasName (pyLower s.category) a)

/-- Update the last element satisfying `p` (identity when there is none). -/
def modifyLastP (p : α → Bool) (g : α → α) : List α → List α
  | [] => []
  | x :: xs => if xs.any p then x :: modifyLastP p g xs else if p x then g x :: xs else x :: xs

/-- Update the last element of a list (identity on the empty list). -/
def applyLast (g : α → α) : List α → List α
  | [] => []
  | [x] => [g x]
  | x :: y :: xs => x :: applyLast g (y :: xs)

/-- Case-insensitive containment of skill lists: every category of `b` has a
case-insensitively matching category in `a` already holding all its skills
case-insensitively. -/
def containedCI (b a : List SkillCat) : Bool :=
  b.all fun s => a.any fun t =>
    pyLower t.category == pyLower s.category &&
      s.skills.all (fun x => (lowerSet t.skills).contains (pyLower x))

/-- The lowercase category names of `a` are pairwise distinct. -/
def nodupNames (a : List SkillCat) : Prop :=
  (a.map (fun c => pyLower c.category)).Nodup

/-! ### Dates (`parse_date`, `datediff_years`,
`Resume_Builder._get_cumulative_time_from_titles`)

Python `datetime` values (time-of-day components are always midnight here)
are modelled by year/month/day triples; `dateutil.relativedelta` month
arithmetic is reproduced from its source, and the third-party
`dateutil.parser.parse` is modelled from its documented behaviour on the
formats exercised by this repository (ISO dates and month-name dates),
filling components missing from the string from the `default` datetime. -/

/-- A Python `datetime.date` / midnight `datetime`. -/
structure PyDate where
  year : Int
  month : Int
  day : Int
deriving DecidableEq, Repr

/-- Lexicographic comparison of datetimes (all times are midnight). -/
def pyDateLt (a b : PyDate) : Bool :=
  a.year < b.year ||
    (a.year == b.year && (a.month < b.month || (a.month == b.month && a.day < b.day)))

/-- Gregorian leap year, as in `calendar.isleap`. -/
def isLeap (y : Int) : Bool := y % 4 == 0 && (y % 100 != 0 || y % 400 == 0)

/-- Length of a month, as in `calendar.monthrange(y, m)[1]`. -/
def daysInMonth (y m : Int) : Int :=
  if m == 2 then (if isLeap y then 29 else 28)
  else if m == 4 || m == 6 || m == 9 || m == 11 then 30
  else 31

/-- Model of `dt + relativedelta(months=n)` (the `__radd__` of a months-only
delta, with the years/months split recombined): shift the absolute month
index and clamp the day to the month length. -/
def addMonths (d : PyDate) (n : Int) : PyDate :=
  let idx := d.year * 12 + (d.month - 1) + n
  let y := idx.fdiv 12
  let m := idx.fmod 12 + 1
  { year := y, month := m, day := min (daysInMonth y m) d.day }

/-- Overshoot-correction loop of `relativedelta.__init__(dt1, dt2)`: adjust the
month guess by `inc` while `cond dt1 (dt2 + months)` holds.  The loop is given
enough fuel; mathematically it runs at most once, since the initial guess
lands in the calendar month of `dt1`. -/
def adjustLoop (dt1 dt2 : PyDate) (inc : Int) (cond : PyDate → PyDate → Bool) :
    Nat → Int → Int
  | 0, months => months
  | fuel + 1, months =>
      if cond dt1 (addMonths dt2 months) then adjustLoop dt1 dt2 inc cond fuel (months + inc)
      else months

/-- Total month difference computed by `relativedelta(dt1, dt2)`: initial guess
from the year/month fields, then overshoot correction toward `dt1`. -/
def relativedeltaMonths (dt1 dt2 : PyDate) : Int :=
  let months := (dt1.year - dt2.year) * 12 + (dt1.month - dt2.month)
  if pyDateLt dt1 dt2 then
    adjustLoop dt1 dt2 1 (fun a dtm => pyDateLt dtm a) (months.natAbs + 2) months
  else
    adjustLoop dt1 dt2 (-1) (fun a dtm => pyDateLt a dtm) (months.natAbs + 2) months

/-- The `_set_months` normalisation of `relativedelta`: split total months into
`(years, months)` with matching signs via sign-adjusted `divmod`. -/
def setMonths (total : Int) : Int × Int :=
  if 11 < total.natAbs then
    let s : Int := if 0 ≤ total then 1 else -1
    ((total * s) / 12 * s, (total * s) % 12 * s)
  else (0, total)

/-- Partial result of the third-party string parser: which of year, month and
day the input string determined. -/
structure PartialDate where
  year : Option Int
  month : Option Int
  day : Option Int
deriving DecidableEq, Repr

/-- Digits of a token, as a number, when the token is a nonempty digit string. -/
def digitsToNat : List Char → Option Nat
  | [] => none
  | cs =>
      if cs.all Char.isDigit then
        some (cs.foldl (fun acc c => 10 * acc + (c.toNat - 48)) 0)
      else none

/-- English month names recognised by `dateutil.parser`. -/
def monthNames : List String :=
  ["january", "february", "march", "april", "may", "june", "july", "august",
   "september", "october", "november", "december"]

/-- Month number of a month-name token (case-insensitive), if any. -/
def monthOfName (s : String) : Option Int :=
  match monthNames.indexOf? (pyLower s) with
  | some i => some ((i : Int) + 1)
  | none => none

/-- Split a list at every occurrence of separator `sep`. -/
def splitOnChar (sep : Char) (cs : List Char) : List (List Char) :=
  match cs with
  | [] => [[]]
  | c :: rest =>
      let r := splitOnChar sep rest
      if c == sep then [] :: r
      else
        match r with
        | [] => [[c]]
        | g :: gs => (c :: g) :: gs

/-- Modelled from the documented behaviour of the external
`dateutil.parser.parse` on the formats this repository feeds it: an ISO date
`YYYY-MM-DD` determines year, month and day; a month name optionally followed
by a year (`"March 2021"`, `"March"`) determines the month and possibly the
year; anything else is unparseable (`ParserError`). -/
def dateutilParse (s : String) : Option PartialDate :=
  match splitOnChar '-' s.data with
  | [ys, ms, ds] =>
      match digitsToNat ys, digitsToNat ms, digitsToNat ds with
      | some y, some m, some d =>
          if 1 ≤ m && m ≤ 12 && 1 ≤ d && (d : Int) ≤ daysInMonth (y : Int) (m : Int) then
            some { year := some (y : Int), month := some (m : Int), day := some (d : Int) }
          else none
      | _, _, _ => none
  | _ =>
      match (splitOnChar ' ' s.data).filter (fun t => !t.isEmpty) with
      | [w] =>
          match monthOfName ⟨w⟩ with
          | some m => some { year := none, month := some m, day := none }
          | none => none
      | [w, ys] =>
          match monthOfName ⟨w⟩, digitsToNat ys with
          | some m, some y => some { year := some (y : Int), month := some m, day := none }
          | _, _ => none
      | _ => none

/-- Error raised when a date string cannot be parsed; it records the offending
input, which `parse_date` logs before re-raising. -/
inductive DateErr where
  | parserError (input : String)
deriving DecidableEq, Repr

/-- Model of `parse_date(d)`: parse an arbitrary string, filling components the
string leaves open from the default date January 1 of the current year
(`datetime(date.today().year, 1, 1)`); on failure the error carrying the
offending input is logged and re-raised, not swallowed. -/
def parse_date (today : PyDate) (d : String) : Except DateErr PyDate :=
  match dateutilParse d with
  | some p =>
      Except.ok
        { year := p.year.getD today.year, month := p.month.getD 1, day := p.day.getD 1 }
  | none => Except.error (DateErr.parserError d)

/-- Model of `datediff_years(start_date, end_date)`: `relativedelta` between the
two parsed dates, then `years * 1.0 + months / 12.0` as a rational. -/
def datediff_years (today : PyDate) (start_date end_date : String) : Except DateErr ℚ := do
  let e ← parse_date today end_date
  let s ← parse_date today start_date
  let p := setMonths (relativedeltaMonths e s)
  pure ((p.1 : ℚ) + (p.2 : ℚ) / 12)

/-- Python 3 `round` on a rational: nearest integer, ties to even. -/
def pyRound (q : ℚ) : Int :=
  if q - ⌊q⌋ < 1 / 2 then ⌊q⌋
  else if 1 / 2 < q - ⌊q⌋ then ⌊q⌋ + 1
  else if 2 ∣ ⌊q⌋ then ⌊q⌋ else ⌊q⌋ + 1

/-- One entry of an experience title list: the Python dict with optional
`startdate` and `enddate` keys (other keys are irrelevant here). -/
structure Title where
  startdate : Option String
  enddate : Option String
deriving DecidableEq, Repr

/-- Python `strftime("%Y-%m-%d")` for dates of the current era. -/
def formatISO (d : PyDate) : String :=
  let pad : Int → String := fun n =>
    let s := toString n.toNat
    if s.length < 2 then "0" ++ s else s
  toString d.year.toNat ++ "-" ++ pad d.month ++ "-" ++ pad d.day

/-- Errors that can escape `_get_cumulative_time_from_titles`: a missing
`startdate` key (`KeyError`), a `last_date` never assigned
(`UnboundLocalError`), or a date parse failure. -/
inductive CumErr where
  | keyError
  | unboundLocal
  | dateErr (e : DateErr)
deriving DecidableEq, Repr

/-- Substitution applied to an end date inside the loop: the literal string
`"current"` becomes the formatted current date. -/
def substEnd (today : PyDate) (e : String) : String :=
  if e == "current" then formatISO today else e

/-- Loop of `_get_cumulative_time_from_titles`: `last_date` is a loop-carried
variable, assigned only when a title has both keys, and read unconditionally. -/
def cumulativeGo (today : PyDate) :
    Option String → ℚ → List Title → Except CumErr ℚ
  | _, acc, [] => Except.ok acc
  | lastDate, acc, t :: rest =>
      let lastDate :=
        match t.startdate, t.enddate with
        | some _, some e => some (substEnd today e)
        | _, _ => lastDate
      match t.startdate with
      | none => Except.error CumErr.keyError
      | some sd =>
          match lastDate with
          | none => Except.error CumErr.unboundLocal
          | some ld =>
              match datediff_years today sd ld with
              | Except.error e => Except.error (CumErr.dateErr e)
              | Except.ok q => cumulativeGo today lastDate (acc + q) rest

/-- Model of `Resume_Builder._get_cumulative_time_from_titles(titles)`: sum the
fractional year differences (substituting the formatted current date for the
literal `"current"`), then Python-`round` the total. -/
def get_cumulative_time_from_titles (today : PyDate) (titles : List Title) :
    Except CumErr Int :=
  (cumulativeGo today none 0 titles).map pyRound

/-- Year difference contributed by one title when both date keys are present
(the value the loop body adds for that title). -/
def titleDiff (today : PyDate) (t : Title) : Except CumErr ℚ :=
  match t.startdate, t.enddate with
  | some sd, some ed =>
      match datediff_years today sd (substEnd today ed) with
      | Except.ok q => Except.ok q
      | Except.error e => Except.error (CumErr.dateErr e)
  | _, _ => Except.error CumErr.keyError

/-- Year differences of all titles, failing when any title lacks a date key or
fails to parse. -/
def titleDiffs (today : PyDate) : List Title → Except CumErr (List ℚ)
  | [] => Except.ok []
  | t :: rest =>
      match titleDiff today t, titleDiffs today rest with
      | Except.ok q, Except.ok qs => Except.ok (q :: qs)
      | Except.error e, _ => Except.error e
      | _, Except.error e => Except.error e

/-! ### Job post parsing state (`Job_Post.parse_job_post`,
`Resume_Builder.__init__`)

The two extraction chains are opaque deterministic capabilities; what is
modelled is the state of a `Job_Post` object (its stored `parsed_job`) and
the number of chain invocations (`predict` calls) it has issued. -/

/-- Output schema of the job-description chain (`Job_Description`); field
values are irrelevant to the claims, so the record is kept opaque. -/
structure JobDescription where
  fields : List (String × String)
deriving DecidableEq, Repr

/-- Output schema of the skills-extraction chain (`Job_Skills`). -/
structure JobSkills where
  technical_skill_requirements : List String
  soft_skill_requirements : List String
deriving DecidableEq, Repr

/-- The merged dict `parsed_job | job_skills.dict()`; the two key sets are
disjoint, so the merge is a pair. -/
structure JobRecord where
  description : JobDescription
  skills : JobSkills
deriving DecidableEq, Repr

/-- The LLM capability behind the two chains of `Job_Post`. -/
structure ChainEnv where
  parserChain : String → JobDescription
  skillsChain : JobDescription → JobSkills

/-- State of a `Job_Post` instance, instrumented with the number of chain
invocations (`predict` calls) issued so far. -/
structure JobPost where
  posting : String
  parsed_job : Option JobRecord
  llm_calls : Nat
deriving Repr

/-- Model of `Job_Post.__init__(posting)`. -/
def JobPost.init (posting : String) : JobPost :=
  { posting := posting, parsed_job := none, llm_calls := 0 }

/-- Model of `Job_Post.parse_job_post()`: run the parser chain on the posting,
run the skills chain on its output (two `predict` invocations), store the
merged record and return it.  The stored `parsed_job` is not consulted. -/
def parse_job_post (env : ChainEnv) (jp : JobPost) : JobPost × JobRecord :=
  let parsed := env.parserChain jp.posting
  let skills := env.skillsChain parsed
  let record := { description := parsed, skills := skills : JobRecord }
  ({ jp with parsed_job := some record, llm_calls := jp.llm_calls + 2 }, record)

/-- Model of the job-post handling in `Resume_Builder.__init__`: parse the job
post only if `self.job_post.parsed_job` is falsy (never already-parsed). -/
def builder_init_job_post (env : ChainEnv) (jp : JobPost) : JobPost :=
  match jp.parsed_job with
  | some _ => jp
  | none => (parse_job_post env jp).1

/-! ### Relevance sorting (`Resume_Builder.rewrite_section`)

`sorted(items, key=lambda d: d["relevance"] * -1)` is a stable sort on the
negated relevance; insertion sort realises exactly the stable-sort contract
of Python `sorted`. -/

/-- One element of the chain output `Resume_List.items`. -/
structure ResumeItem where
  item : String
  relevance : Int
deriving DecidableEq, Repr

/-- Insert `x` into an already sorted list: skip the elements whose key is
strictly smaller, so that `x` lands before every element of equal key that
originally came after it. -/
def insertByKey (key : α → Int) (x : α) : List α → List α
  | [] => [x]
  | y :: ys => if key y < key x then y :: insertByKey key x ys else x :: y :: ys

/-- Model of Python `sorted(l, key=key)`: a stable ascending sort. -/
def pySorted (key : α → Int) : List α → List α
  | [] => []
  | x :: xs => insertByKey key x (pySorted key xs)

/-- Post-processing of `Resume_Builder.rewrite_section` applied to the chain
output: sort by `relevance * -1` and keep only the bullet strings. -/
def rewrite_section (items : List ResumeItem) : List String :=
  (pySorted (fun d => d.relevance * -1) items).map ResumeItem.item

/-! ### Improvement report (`Resume_Builder.suggest_improvements`) -/

/-- Output schema of the improvement chain (`Resume_Improvements`). -/
structure ResumeImprovements where
  missing_requirements : List String
  improvements : List String
deriving DecidableEq, Repr

/-- One language error and its suggested fix (`Language_Fix`). -/
structure LanguageFix where
  error : String
  fix : String
deriving DecidableEq, Repr

/-- Output schema of the language-check chain (`Language_Improvements`). -/
structure LanguageImprovements where
  fixes : List LanguageFix
deriving DecidableEq, Repr

/-- An element of the heterogeneous Python list returned by
`suggest_improvements`: a plain suggestion string, or the final dict
`{"Language improvements": [...]}`. -/
inductive ReportEntry where
  | text (s : String)
  | labeled (label : String) (entries : List String)
deriving DecidableEq, Repr

/-- The string `f"{fix['error']} -> {fix['fix']}"`. -/
def formatLanguageFix (f : LanguageFix) : String := f.error ++ " -> " ++ f.fix

/-- Model of `Resume_Builder.suggest_improvements()` as a function of the two
chain outputs: keep only the `improvements` field of the first chain, then
append the formatted language fixes as one labeled entry. -/
def suggest_improvements (imp : ResumeImprovements) (lang : LanguageImprovements) :
    List ReportEntry :=
  (imp.improvements.map ReportEntry.text) ++
    [ReportEntry.labeled "Language improvements" (lang.fixes.map formatLanguageFix)]

/-! ### Experience rewriting (`Resume_Builder.rewrite_unedited_experiences`)

An experience dict is modelled by its `unedited` and `highlights` entries
plus an opaque remainder `rest` standing for all other keys.  The section
rewriter chain is an opaque function from the unedited text to the new
highlight list. -/

/-- An experience record; `rest` stands for every key other than `unedited`
and `highlights`. -/
structure Experience (ρ : Type) where
  unedited : Option String
  highlights : Option (List String)
  rest : ρ
deriving DecidableEq, Repr

/-- Branch on the popped `unedited` value: when it is truthy (present and
nonempty), overwrite `highlights` of the copied record with the rewritten
section. -/
def popAndRewrite (rw : String → List String) (exp : Experience ρ) :
    Option String → Experience ρ
  | some s => if s = "" then exp else { exp with highlights := some (rw s) }
  | none => exp

/-- Model of the loop body of `rewrite_unedited_experiences` on one record:
copy the dict, pop `unedited`, and when the popped value is truthy (present
and nonempty) overwrite `highlights` with the rewritten section. -/
def rewriteOneExperience (rw : String → List String) (expRaw : Experience ρ) :
    Experience ρ :=
  popAndRewrite rw { expRaw with unedited := none } expRaw.unedited

/-- Model of `Resume_Builder.rewrite_unedited_experiences()` as a function of
the stored raw experiences. -/
def rewrite_unedited_experiences (rw : String → List String)
    (experiences_raw : List (Experience ρ)) : List (Experience ρ) :=
  experiences_raw.map (rewriteOneExperience rw)

/-! ### Heap model for the mutation claim

To state that the raw experiences are never mutated, the Python object store
is made explicit: a heap is a list of experience records, an address is an
index, and `dict(exp_raw)` allocates a fresh cell.  Every write of the loop
targets the freshly allocated copy. -/

/-- Write `f` through address `a` (no-op on a dangling address, which the
modelled program never produces). -/
def heapWrite (h : List (Experience ρ)) (a : Nat) (f : Experience ρ → Experience ρ) :
    List (Experience ρ) :=
  modifyIdx f a h

/-- Conditional `highlights` assignment of the loop body: when the popped
`unedited` value is truthy (present and nonempty), overwrite the `highlights`
of the cell at `newAddr` with the rewritten section. -/
def assignHighlights (rw : String → List String) (unedited : Option String)
    (newAddr : Nat) (h : List (Experience ρ)) : List (Experience ρ) :=
  match unedited with
  | some s =>
      if s = "" then h
      else heapWrite h newAddr (fun e => { e with highlights := some (rw s) })
  | none => h

/-- One iteration of the `rewrite_unedited_experiences` loop on the heap:
read `exp_raw`, allocate the shallow copy `exp = dict(exp_raw)`, pop its
`unedited` key in place, optionally assign its `highlights`, and return the
address of the copy. -/
def rewriteExpStep (rw : String → List String) (dflt : Experience ρ)
    (h : List (Experience ρ)) (addr : Nat) : List (Experience ρ) × Nat :=
  let expRaw := h.getD addr dflt
  let h2 := h ++ [expRaw]
  let newAddr := h2.length - 1
  let h3 := heapWrite h2 newAddr (fun e => { e with unedited := none })
  (assignHighlights rw expRaw.unedited newAddr h3, newAddr)

/-- The whole loop of `rewrite_unedited_experiences` on the heap: fold over the
addresses of the raw experience records, collecting the result addresses. -/
def rewriteExpLoop (rw : String → List String) (dflt : Experience ρ)
    (h : List (Experience ρ)) (addrs : List Nat) : List (Experience ρ) × List Nat :=
  match addrs with
  | [] => (h, [])
  | a :: rest =>
      let step := rewriteExpStep rw dflt h a
      let out := rewriteExpLoop rw dflt step.1 rest
      (out.1, step.2 :: out.2)

/-! ### Lemmas: the skills combinator -/

theorem combineSkillsGo_eq (lws : List String) (l2 acc : List String) :
    combineSkillsGo lws acc l2 = acc ++ l2.filter (fun i => !lws.contains (pyLower i)) := by
  induction l2 generalizing acc with
  | nil => simp [combineSkillsGo]
  | cons i rest ih =>
      simp only [combineSkillsGo, List.filter_cons]
      cases h : lws.contains (pyLower i) with
      | true => simp [h, ih]
      | false => simp [h, ih]

theorem combine_skills_eq_cmb (l1 l2 : List String) :
    combine_skills_in_category l1 l2 = cmb l1 l2 := by
  rw [combine_skills_in_category, combineSkillsGo_eq, cmb]

theorem mem_lowerSet {l : List String} {y : String} :
    (lowerSet l).contains y = true ↔ ∃ x ∈ l, pyLower x = y := by
  simp only [lowerSet, List.contains_eq_any_beq, List.any_eq_true, List.mem_map,
    beq_iff_eq]
  constructor
  · rintro ⟨z, ⟨x, hx, hxz⟩, hyz⟩
    exact ⟨x, hx, by rw [hxz, hyz]⟩
  · rintro ⟨x, hx, hxy⟩
    exact ⟨y, ⟨x, hx, hxy⟩, rfl⟩

theorem contains_lowerSet_filter (A B : List String) (y : String)
    (h : (lowerSet A).contains y = false) :
    (lowerSet (B.filter fun i => !(lowerSet A).contains (pyLower i))).contains y
      = (lowerSet B).contains y := by
  cases hB : (lowerSet B).contains y with
  | true =>
      obtain ⟨x, hxB, hxy⟩ := mem_lowerSet.mp hB
      apply mem_lowerSet.mpr
      refine ⟨x, List.mem_filter.mpr ⟨hxB, ?_⟩, hxy⟩
      rw [hxy, h]
      rfl
  | false =>
      cases hL : (lowerSet (B.filter fun i => !(lowerSet A).contains (pyLower i))).contains y with
      | false => rfl
      | true =>
          obtain ⟨x, hxF, hxy⟩ := mem_lowerSet.mp hL
          have hxB : x ∈ B := (List.mem_filter.mp hxF).1
          exact absurd (mem_lowerSet.mpr ⟨x, hxB, hxy⟩) (by rw [hB]; exact Bool.false_ne_true)

theorem lowerSet_append (a b : List String) :
    lowerSet (a ++ b) = lowerSet a ++ lowerSet b := by
  simp [lowerSet]

theorem contains_append (a b : List String) (y : String) :
    (a ++ b).contains y = (a.contains y || b.contains y) := by
  simp [List.contains_eq_any_beq]

theorem cmb_assoc (A B C : List String) : cmb (cmb A B) C = cmb A (cmb B C) := by
  simp only [cmb, List.filter_append, List.append_assoc]
  congr 1
  congr 1
  rw [List.filter_filter]
  apply List.filter_congr
  intro i _
  rw [lowerSet_append, contains_append]
  cases hA : (lowerSet A).contains (pyLower i) with
  | true => simp [hA]
  | false =>
      rw [contains_lowerSet_filter A B (pyLower i) hA]
      simp [hA]

theorem cmb_nil (A : List String) : cmb A [] = A := by
  simp [cmb]

theorem foldl_cmb_assoc (C : List (List String)) (A t : List String) :
    C.foldl cmb (cmb A t) = cmb A (C.foldl cmb t) := by
  induction C generalizing t with
  | nil => rfl
  | cons u C ih => rw [List.foldl_cons, List.foldl_cons, cmb_assoc, ih]

/-! ### Lemmas: the pointwise update combinator -/

theorem updCats_map_category (f : String → List (List String)) (a : List SkillCat) :
    (updCats f a).map (fun c => pyLower c.category) = a.map (fun c => pyLower c.category) := by
  induction a with
  | nil => rfl
  | cons c rest ih =>
      simp only [updCats, List.map_cons, ih]
      congr 1
      cases h : hasName (pyLower c.category) rest <;> simp [h]

theorem stringBeq_comm (a b : String) : (a == b) = (b == a) := by
  cases h : a == b
  · cases h2 : b == a
    · rfl
    · rw [beq_iff_eq] at h2; subst h2; simp at h
  · rw [beq_iff_eq] at h; subst h; simp

theorem hasName_eq_mem_map (n : String) (l : List SkillCat) :
    hasName n l = (l.map (fun c => pyLower c.category)).contains n := by
  simp only [hasName, List.contains_eq_any_beq, List.any_map, Function.comp_def]
  induction l with
  | nil => rfl
  | cons c rest ih =>
      simp only [List.map_cons, List.any_cons, ih]
      rw [stringBeq_comm (pyLower c.category) n]

theorem hasName_updCats (n : String) (f : String → List (List String)) (a : List SkillCat) :
    hasName n (updCats f a) = hasName n a := by
  rw [hasName_eq_mem_map, hasName_eq_mem_map, updCats_map_category]

theorem hasName_append (n : String) (x y : List SkillCat) :
    hasName n (x ++ y) = (hasName n x || hasName n y) := by
  simp [hasName]

theorem length_updCats (f : String → List (List String)) (a : List SkillCat) :
    (updCats f a).length = a.length := by
  induction a with
  | nil => rfl
  | cons c rest ih => simp [updCats, ih]

theorem updCats_congr {f g : String → List (List String)} (a : List SkillCat)
    (h : ∀ c ∈ a, ∀ s : List String,
      (f (pyLower c.category)).foldl cmb s = (g (pyLower c.category)).foldl cmb s) :
    updCats f a = updCats g a := by
  induction a with
  | nil => rfl
  | cons c rest ih =>
      simp only [updCats]
      rw [ih (fun d hd s => h d (List.mem_cons_of_mem c hd) s)]
      congr 1
      cases hn : hasName (pyLower c.category) rest
      · simp only [hn, if_neg Bool.false_ne_true]
        rw [h c (List.mem_cons_self c rest) c.skills]
      · simp [hn]

theorem updCats_updCats (f g : String → List (List String)) (a : List SkillCat) :
    updCats f (updCats g a) = updCats (fun n => g n ++ f n) a := by
  induction a with
  | nil => rfl
  | cons c rest ih =>
      simp only [updCats]
      cases hn : hasName (pyLower c.category) rest with
      | true => simp [hn, hasName_updCats, updCats, ih]
      | false =>
          simp only [hn, if_neg Bool.false_ne_true, updCats, hasName_updCats, ih]
          congr 2
          simp [List.foldl_append]

theorem updCats_append (f : String → List (List String)) (x y : List SkillCat)
    (h : ∀ c ∈ x, hasName (pyLower c.category) y = false) :
    updCats f (x ++ y) = updCats f x ++ updCats f y := by
  induction x with
  | nil => rfl
  | cons c rest ih =>
      simp only [List.cons_append, updCats, List.append_eq, hasName_append]
      rw [h c (List.mem_cons_self c rest), ih (fun d hd => h d (List.mem_cons_of_mem c hd))]
      simp

/-! ### Lemmas: buckets and new categories -/

theorem bucket_append (n : String) (x y : List SkillCat) :
    bucket n (x ++ y) = bucket n x ++ bucket n y := by
  simp [bucket]

theorem bucket_cons (n : String) (s : SkillCat) (rest : List SkillCat) :
    bucket n (s :: rest)
      = if pyLower s.category == n then s.skills :: bucket n rest else bucket n rest := by
  simp only [bucket, List.filter_cons]
  cases h : pyLower s.category == n <;> simp [h]

theorem newCats_cons (a : List SkillCat) (s : SkillCat) (rest : List SkillCat) :
    newCats a (s :: rest)
      = if hasName (pyLower s.category) a then newCats a rest else s :: newCats a rest := by
  simp only [newCats, List.filter_cons]
  cases h : hasName (pyLower s.category) a <;> simp [h]

theorem bucket_eq_nil (n : String) (b : List SkillCat) :
    bucket n b = [] ↔ hasName n b = false := by
  induction b with
  | nil => simp [bucket, hasName]
  | cons s rest ih =>
      rw [bucket_cons]
      simp only [hasName, List.any_cons] at *
      cases h : pyLower s.category == n with
      | true => simp [h]
      | false => simpa [h] using ih

theorem hasName_filter_nameDet (q : String → Bool) (n : String) (a : List SkillCat) :
    hasName n (a.filter (fun c => q (pyLower c.category))) = (q n && hasName n a) := by
  induction a with
  | nil => simp [hasName]
  | cons c rest ih =>
      simp only [List.filter_cons, hasName, List.any_cons] at *
      cases hb : pyLower c.category == n with
      | true =>
          have hcn : pyLower c.category = n := beq_iff_eq.mp hb
          subst hcn
          cases hq : q (pyLower c.category) <;> simp [hq, ih]
      | false =>
          cases hq : q (pyLower c.category) <;> simp [hq, hb, ih]

theorem updCats_filter (q : String → Bool) (f : String → List (List String))
    (a : List SkillCat) :
    updCats f (a.filter (fun c => q (pyLower c.category)))
      = (updCats f a).filter (fun c => q (pyLower c.category)) := by
  induction a with
  | nil => rfl
  | cons c rest ih =>
      simp only [List.filter_cons]
      cases hq : q (pyLower c.category) with
      | true =>
          simp only [updCats, hasName_filter_nameDet, hq, Bool.true_and, ih,
            List.filter_cons]
          cases hn : hasName (pyLower c.category) rest <;> simp [hq]
      | false =>
          simp only [updCats, ih, List.filter_cons]
          cases hn : hasName (pyLower c.category) rest <;> simp [hq, hn, ih]

theorem applyLast_cons_ne (g : α → α) (s : α) (t : List α) (h : t ≠ []) :
    applyLast g (s :: t) = s :: applyLast g t := by
  cases t with
  | nil => exact absurd rfl h
  | cons y ys => rfl

theorem bucket_updCats (n : String) (f : String → List (List String))
    (b : List SkillCat) :
    bucket n (updCats f b) = applyLast (fun t => (f n).foldl cmb t) (bucket n b) := by
  induction b with
  | nil => rfl
  | cons c rest ih =>
      simp only [updCats]
      cases hn : hasName (pyLower c.category) rest with
      | true =>
          rw [if_pos rfl, bucket_cons, bucket_cons]
          cases hb : pyLower c.category == n with
          | true =>
              rw [if_pos rfl, if_pos rfl]
              have hcn : pyLower c.category = n := beq_iff_eq.mp hb
              have hrest : bucket n rest ≠ [] := by
                intro hnil
                rw [bucket_eq_nil] at hnil
                rw [hcn] at hn
                rw [hn] at hnil
                exact Bool.noConfusion hnil
              rw [applyLast_cons_ne _ _ _ hrest, ih]
          | false =>
              rw [if_neg Bool.false_ne_true, if_neg Bool.false_ne_true, ih]
      | false =>
          rw [if_neg Bool.false_ne_true, bucket_cons, bucket_cons]
          cases hb : pyLower c.category == n with
          | true =>
              rw [if_pos rfl, if_pos rfl]
              have hcn : pyLower c.category = n := beq_iff_eq.mp hb
              have hrest : bucket n rest = [] := by
                rw [bucket_eq_nil, ← hcn, hn]
              have hrest2 : bucket n (updCats f rest) = [] := by
                rw [bucket_eq_nil, hasName_updCats, ← hcn, hn]
              rw [hrest, hrest2, hcn]
              rfl
          | false =>
              rw [if_neg Bool.false_ne_true, if_neg Bool.false_ne_true, ih]

theorem bucket_newCats (n : String) (b c : List SkillCat) :
    bucket n (newCats b c) = if hasName n b then [] else bucket n c := by
  induction c with
  | nil =>
      cases h : hasName n b <;> simp [h, bucket, newCats]
  | cons s rest ih =>
      rw [newCats_cons, bucket_cons]
      cases hb : pyLower s.category == n with
      | true =>
          have hcn : pyLower s.category = n := beq_iff_eq.mp hb
          subst hcn
          cases hbn : hasName (pyLower s.category) b with
          | true => simp [hbn, ih]
          | false => simp [bucket_cons, hbn, ih]
      | false =>
          cases hs : hasName (pyLower s.category) b with
          | true => simp [hs, hb, ih]
          | false => simp [bucket_cons, hs, hb, ih]

theorem newCats_append (a x y : List SkillCat) :
    newCats a (x ++ y) = newCats a x ++ newCats a y := by
  simp [newCats]

theorem hasName_newCats (n : String) (a b : List SkillCat) :
    hasName n (newCats a b) = (!hasName n a && hasName n b) :=
  hasName_filter_nameDet (fun m => !hasName m a) n b

/-! ### Lemmas: the index dict and in-place modification -/

theorem hasName_cons (n : String) (c : SkillCat) (rest : List SkillCat) :
    hasName n (c :: rest) = (pyLower c.category == n || hasName n rest) := rfl

theorem lastIdxOf_isSome (a : List SkillCat) (n : String) :
    (lastIdxOf a n).isSome = hasName n a := by
  induction a with
  | nil => rfl
  | cons c rest ih =>
      rw [hasName_cons]
      simp only [lastIdxOf]
      cases hr : lastIdxOf rest n with
      | some j =>
          have h2 : hasName n rest = true := by rw [← ih, hr]; rfl
          simp [h2]
      | none =>
          have h2 : hasName n rest = false := by rw [← ih, hr]; rfl
          cases hb : pyLower c.category == n <;> simp [hb, h2]

theorem lastIdxOf_eq_none (a : List SkillCat) (n : String) :
    lastIdxOf a n = none ↔ hasName n a = false := by
  rw [← lastIdxOf_isSome]
  cases h : lastIdxOf a n <;> simp [h]

theorem lastIdxOf_append_of_not (x y : List SkillCat) (n : String)
    (h : hasName n y = false) :
    lastIdxOf (x ++ y) n = lastIdxOf x n := by
  induction x with
  | nil =>
      simp only [List.nil_append, lastIdxOf]
      exact (lastIdxOf_eq_none y n).mpr h
  | cons c rest ih => simp only [List.cons_append, lastIdxOf, List.append_eq, ih]

theorem category_ite_update (P : Prop) [Decidable P] (c : SkillCat) (s : List String) :
    (if P then c else { c with skills := s }).category = c.category := by
  cases h : decide P with
  | true => rw [if_pos (of_decide_eq_true h)]
  | false => rw [if_neg (of_decide_eq_false h)]

theorem lastIdxOf_updCats (f : String → List (List String)) (a : List SkillCat)
    (n : String) :
    lastIdxOf (updCats f a) n = lastIdxOf a n := by
  induction a with
  | nil => rfl
  | cons c rest ih =>
      simp only [updCats, lastIdxOf, ih]
      cases hr : lastIdxOf rest n with
      | some j => rfl
      | none =>
          have hcat : pyLower (if hasName (pyLower c.category) rest = true then c
              else { c with skills := (f (pyLower c.category)).foldl cmb c.skills }).category
              = pyLower c.category := by
            rw [category_ite_update]
          rw [hcat]

theorem bridge_modifyIdx (g : SkillCat → SkillCat) (x : List SkillCat) (n : String)
    (i : Nat) (h : lastIdxOf x n = some i) :
    modifyIdx g i x = modifyLastP (fun c => pyLower c.category == n) g x := by
  induction x generalizing i with
  | nil => simp [lastIdxOf] at h
  | cons c rest ih =>
      simp only [lastIdxOf] at h
      cases hr : lastIdxOf rest n with
      | some j =>
          rw [hr] at h
          have hij : i = j + 1 := by
            simp only [Option.some.injEq] at h
            exact h.symm
          subst hij
          have hrest : rest.any (fun c => pyLower c.category == n) = true := by
            have h3 := lastIdxOf_isSome rest n
            rw [hr] at h3
            simpa [hasName] using h3.symm
          rw [show modifyIdx g (j + 1) (c :: rest) = c :: modifyIdx g j rest from rfl]
          rw [ih j hr]
          simp [modifyLastP, hrest]
      | none =>
          rw [hr] at h
          cases hb : pyLower c.category == n with
          | false => rw [hb] at h; simp at h
          | true =>
              rw [hb] at h
              have hi0 : i = 0 := by simpa using h.symm
              subst hi0
              have hrest : rest.any (fun c => pyLower c.category == n) = false := by
                have h3 := lastIdxOf_isSome rest n
                rw [hr] at h3
                simpa [hasName] using h3.symm
              simp [modifyIdx, modifyLastP, hrest, hb]

theorem modifyLastP_id_of_not (p : α → Bool) (g : α → α) (x : List α)
    (h : x.any p = false) :
    modifyLastP p g x = x := by
  induction x with
  | nil => rfl
  | cons c rest ih =>
      simp only [List.any_cons, Bool.or_eq_false_iff] at h
      simp only [modifyLastP, ih h.2, h.1, h.2]
      simp

theorem modifyLastP_append_of_not (p : α → Bool) (g : α → α) (x y : List α)
    (h : y.any p = false) :
    modifyLastP p g (x ++ y) = modifyLastP p g x ++ y := by
  induction x with
  | nil =>
      simp only [List.nil_append, modifyLastP]
      exact modifyLastP_id_of_not p g y h
  | cons c rest ih =>
      have hxy : (rest ++ y).any p = rest.any p := by simp [List.any_append, h]
      simp only [List.cons_append, modifyLastP, List.append_eq, hxy]
      cases hr : rest.any p with
      | true => simp [ih]
      | false =>
          simp only [if_neg Bool.false_ne_true]
          cases hc : p c with
          | true => simp
          | false => simp

/-! ### Lemmas: the representation of the merge -/

theorem bucket_nil (n : String) : bucket n [] = [] := rfl

theorem newCats_nil (a : List SkillCat) : newCats a [] = [] := rfl

theorem any_eq_hasName (n : String) (l : List SkillCat) :
    (l.any fun c => pyLower c.category == n) = hasName n l := rfl

theorem updCats_id (a : List SkillCat) : updCats (fun _ => []) a = a := by
  induction a with
  | nil => rfl
  | cons c rest ih =>
      simp only [updCats, ih, List.foldl_nil]
      congr 1
      have hc : { c with skills := c.skills } = c := rfl
      rw [hc, ite_self]

theorem updCats_snoc (n : String) (ts : List String) (f : String → List (List String))
    (a : List SkillCat) (h : hasName n a = true) :
    modifyLastP (fun c => pyLower c.category == n)
        (fun c => { c with skills := cmb c.skills ts }) (updCats f a)
      = updCats (fun m => if m == n then f m ++ [ts] else f m) a := by
  induction a with
  | nil => simp [hasName] at h
  | cons c rest ih =>
      rw [hasName_cons] at h
      simp only [updCats, modifyLastP, any_eq_hasName, hasName_updCats]
      cases hnr : hasName n rest with
      | true =>
          rw [if_pos rfl, ih hnr]
          congr 1
          cases hm : hasName (pyLower c.category) rest with
          | true => simp [hm]
          | false =>
              have hb : (pyLower c.category == n) = false := by
                cases hb2 : pyLower c.category == n
                · rfl
                · have := beq_iff_eq.mp hb2
                  rw [this] at hm
                  rw [hm] at hnr
                  exact Bool.noConfusion hnr
              simp [hm, hb]
      | false =>
          rw [if_neg Bool.false_ne_true]
          have hb : (pyLower c.category == n) = true := by
            rw [hnr, Bool.or_false] at h
            exact h
          have hcn : pyLower c.category = n := beq_iff_eq.mp hb
          subst hcn
          rw [hnr, if_neg Bool.false_ne_true]
          rw [if_pos (beq_self_eq_true (pyLower c.category))]
          congr 1
          · rw [if_pos (beq_self_eq_true (pyLower c.category)), List.foldl_append]
            rfl
          · apply updCats_congr
            intro d hd s
            have hdn : (pyLower d.category == pyLower c.category) = false := by
              cases hdb : pyLower d.category == pyLower c.category
              · rfl
              · have heq := beq_iff_eq.mp hdb
                have h4 : hasName (pyLower c.category) rest = true := by
                  rw [hasName, List.any_eq_true]
                  exact ⟨d, hd, by rw [heq]; exact beq_self_eq_true _⟩
                rw [h4] at hnr
                exact Bool.noConfusion hnr
            rw [if_neg (by rw [hdn]; exact Bool.false_ne_true)]

theorem combine_skill_lists_nil (a : List SkillCat) : combine_skill_lists a [] = a := rfl

theorem combine_skill_lists_snoc (a b : List SkillCat) (s : SkillCat) :
    combine_skill_lists a (b ++ [s]) =
      (match lastIdxOf a (pyLower s.category) with
       | some i =>
           modifyIdx
             (fun c => { c with skills := combine_skills_in_category c.skills s.skills })
             i (combine_skill_lists a b)
       | none => combine_skill_lists a b ++ [s]) := by
  rw [combine_skill_lists, combine_skill_lists, List.foldl_append]
  rfl

theorem combine_skill_lists_snoc_none (a b : List SkillCat) (s : SkillCat)
    (h : lastIdxOf a (pyLower s.category) = none) :
    combine_skill_lists a (b ++ [s]) = combine_skill_lists a b ++ [s] := by
  rw [combine_skill_lists_snoc, h]

theorem combine_skill_lists_snoc_some (a b : List SkillCat) (s : SkillCat) (i : Nat)
    (h : lastIdxOf a (pyLower s.category) = some i) :
    combine_skill_lists a (b ++ [s]) =
      modifyIdx
        (fun c => { c with skills := combine_skills_in_category c.skills s.skills })
        i (combine_skill_lists a b) := by
  rw [combine_skill_lists_snoc, h]

theorem combine_skill_lists_rep (a b : List SkillCat) :
    combine_skill_lists a b = updCats (fun n => bucket n b) a ++ newCats a b := by
  induction b using List.reverseRecOn with
  | nil =>
      rw [combine_skill_lists_nil, newCats_nil, List.append_nil]
      have h1 : updCats (fun n => bucket n []) a = updCats (fun _ => []) a :=
        updCats_congr a (fun c _ s => rfl)
      rw [h1, updCats_id]
  | append_singleton b s ih =>
      cases hidx : lastIdxOf a (pyLower s.category) with
      | none =>
          have hno : hasName (pyLower s.category) a = false :=
            (lastIdxOf_eq_none a (pyLower s.category)).mp hidx
          rw [combine_skill_lists_snoc_none a b s hidx, ih, List.append_assoc]
          congr 1
          · apply updCats_congr
            intro c hc t
            have hb : (pyLower s.category == pyLower c.category) = false := by
              cases hb2 : pyLower s.category == pyLower c.category
              · rfl
              · have heq := beq_iff_eq.mp hb2
                have h4 : hasName (pyLower s.category) a = true := by
                  rw [hasName, List.any_eq_true]
                  exact ⟨c, hc, by rw [heq]; exact beq_self_eq_true _⟩
                rw [h4] at hno
                exact Bool.noConfusion hno
            rw [bucket_append, bucket_cons, hb, if_neg Bool.false_ne_true, bucket_nil,
              List.append_nil]
          · rw [newCats_append, newCats_cons, hno, if_neg Bool.false_ne_true, newCats_nil]
      | some i =>
          have hyes : hasName (pyLower s.category) a = true := by
            have h3 := lastIdxOf_isSome a (pyLower s.category)
            rw [hidx] at h3
            exact h3.symm
          have hnew : hasName (pyLower s.category) (newCats a b) = false := by
            rw [hasName_newCats, hyes]
            simp
          have hgf : (fun c => { c with
              skills := combine_skills_in_category c.skills s.skills } : SkillCat → SkillCat)
              = (fun c => { c with skills := cmb c.skills s.skills }) := by
            funext c
            rw [combine_skills_eq_cmb]
          rw [combine_skill_lists_snoc_some a b s i hidx, ih, hgf]
          have hlast : lastIdxOf (updCats (fun n => bucket n b) a ++ newCats a b)
              (pyLower s.category) = some i := by
            rw [lastIdxOf_append_of_not _ _ _ hnew, lastIdxOf_updCats, hidx]
          rw [bridge_modifyIdx _ _ (pyLower s.category) i hlast]
          rw [modifyLastP_append_of_not _ _ _ _ (by rw [any_eq_hasName]; exact hnew)]
          rw [updCats_snoc (pyLower s.category) s.skills _ a hyes]
          congr 1
          · apply updCats_congr
            intro c hc t
            rw [bucket_append, bucket_cons, bucket_nil]
            cases hm : pyLower c.category == pyLower s.category with
            | true =>
                have heq := beq_iff_eq.mp hm
                rw [if_pos rfl, if_pos (by rw [heq]; exact beq_self_eq_true _)]
            | false =>
                have hm2 : (pyLower s.category == pyLower c.category) = false := by
                  rw [stringBeq_comm]
                  exact hm
                rw [if_neg Bool.false_ne_true,
                  if_neg (by rw [hm2]; exact Bool.false_ne_true), List.append_nil]
          · rw [newCats_append, newCats_cons, hyes, if_pos rfl, newCats_nil,
              List.append_nil]

/-! ### Lemmas: associativity of the merge -/

theorem hasName_of_mem (d : SkillCat) (l : List SkillCat) (h : d ∈ l) :
    hasName (pyLower d.category) l = true := by
  rw [hasName, List.any_eq_true]
  exact ⟨d, h, beq_self_eq_true _⟩

theorem mem_updCats_hasName (d : SkillCat) (f : String → List (List String))
    (a : List SkillCat) (h : d ∈ updCats f a) :
    hasName (pyLower d.category) a = true := by
  have h1 := hasName_of_mem d _ h
  rwa [hasName_updCats] at h1

theorem updCats_newCats (f : String → List (List String)) (a b : List SkillCat) :
    newCats a (updCats f b) = updCats f (newCats a b) :=
  (updCats_filter (fun m => !hasName m a) f b).symm

theorem newCats_parts (f : String → List (List String)) (a b c : List SkillCat) :
    newCats (updCats f a ++ newCats a b) c = newCats a (newCats b c) := by
  simp only [newCats]
  rw [List.filter_filter]
  apply List.filter_congr
  intro s _
  rw [hasName_append, hasName_updCats]
  cases h1 : hasName (pyLower s.category) a <;>
    cases h2 : hasName (pyLower s.category) b <;>
      simp [h1, h2, hasName_filter_nameDet (fun m => !hasName m a)]

theorem foldl_cmb_applyLast (B C : List (List String)) (t : List String)
    (hB : B ≠ []) :
    List.foldl cmb t (B ++ C) = List.foldl cmb t (applyLast (fun u => C.foldl cmb u) B) := by
  induction B generalizing t with
  | nil => exact absurd rfl hB
  | cons x xs ih =>
      cases xs with
      | nil =>
          simp only [List.cons_append, List.nil_append, applyLast, List.foldl_cons,
            List.foldl_nil]
          exact foldl_cmb_assoc C t x
      | cons y ys =>
          simp only [applyLast, List.cons_append, List.foldl_cons]
          exact ih (cmb t x) (by simp)

theorem combine_skill_lists_assoc (a b c : List SkillCat) :
    combine_skill_lists (combine_skill_lists a b) c
      = combine_skill_lists a (combine_skill_lists b c) := by
  rw [combine_skill_lists_rep (combine_skill_lists a b) c,
    combine_skill_lists_rep a b, combine_skill_lists_rep a (combine_skill_lists b c),
    combine_skill_lists_rep b c]
  have hdisj : ∀ d ∈ updCats (fun n => bucket n b) a,
      hasName (pyLower d.category) (newCats a b) = false := by
    intro d hd
    rw [hasName_newCats, mem_updCats_hasName d _ a hd]
    simp
  rw [updCats_append _ _ _ hdisj, updCats_updCats, newCats_parts, newCats_append,
    updCats_newCats, List.append_assoc]
  congr 1
  apply updCats_congr
  intro d _ t
  rw [bucket_append, bucket_updCats, bucket_newCats]
  cases hmb : hasName (pyLower d.category) b with
  | true =>
      rw [if_pos rfl, List.append_nil]
      have hBne : bucket (pyLower d.category) b ≠ [] := by
        intro hnil
        rw [bucket_eq_nil] at hnil
        rw [hnil] at hmb
        exact Bool.noConfusion hmb
      exact foldl_cmb_applyLast _ _ t hBne
  | false =>
      rw [if_neg Bool.false_ne_true]
      have hB : bucket (pyLower d.category) b = [] := (bucket_eq_nil _ _).mpr hmb
      rw [hB]
      rfl

/-! ### Lemmas: idempotence of the merge on contained inputs -/

theorem cmb_id_of_contained (s0 ts : List String)
    (h : ∀ x ∈ ts, (lowerSet s0).contains (pyLower x) = true) :
    cmb s0 ts = s0 := by
  rw [cmb]
  have hnil : ts.filter (fun i => !(lowerSet s0).contains (pyLower i)) = [] := by
    rw [List.filter_eq_nil_iff]
    intro x hx
    rw [h x hx]
    simp
  rw [hnil, List.append_nil]

theorem foldl_cmb_id (s0 : List String) (B : List (List String))
    (h : ∀ ts ∈ B, ∀ x ∈ ts, (lowerSet s0).contains (pyLower x) = true) :
    B.foldl cmb s0 = s0 := by
  induction B with
  | nil => rfl
  | cons ts B ih =>
      rw [List.foldl_cons, cmb_id_of_contained s0 ts (h ts (List.mem_cons_self ts B))]
      exact ih (fun u hu => h u (List.mem_cons_of_mem ts hu))

theorem updCats_eq_self (f : String → List (List String)) (a : List SkillCat)
    (h : ∀ c ∈ a, ∀ ts ∈ f (pyLower c.category), ∀ x ∈ ts,
      (lowerSet c.skills).contains (pyLower x) = true) :
    updCats f a = a := by
  induction a with
  | nil => rfl
  | cons c rest ih =>
      simp only [updCats]
      rw [ih (fun d hd => h d (List.mem_cons_of_mem c hd))]
      congr 1
      rw [foldl_cmb_id c.skills _ (h c (List.mem_cons_self c rest))]
      have hc : { c with skills := c.skills } = c := rfl
      rw [hc, ite_self]

theorem newCats_eq_nil_of_contained (a b : List SkillCat)
    (h : containedCI b a = true) :
    newCats a b = [] := by
  rw [newCats, List.filter_eq_nil_iff]
  intro s hs
  rw [containedCI, List.all_eq_true] at h
  obtain ⟨t, ht, hts⟩ := List.any_eq_true.mp (h s hs)
  have hname : hasName (pyLower s.category) a = true := by
    rw [hasName, List.any_eq_true]
    exact ⟨t, ht, (Bool.and_eq_true _ _).mp hts |>.1⟩
  rw [hname]
  simp

theorem combine_skill_lists_idem (a b : List SkillCat) (hnd : nodupNames a)
    (hc : containedCI b a = true) :
    combine_skill_lists a b = a := by
  rw [combine_skill_lists_rep, newCats_eq_nil_of_contained a b hc, List.append_nil]
  apply updCats_eq_self
  intro c hca ts hts x hx
  rw [bucket] at hts
  obtain ⟨s, hsf, hsk⟩ := List.mem_map.mp hts
  obtain ⟨hsb, hcat⟩ := List.mem_filter.mp hsf
  rw [containedCI, List.all_eq_true] at hc
  obtain ⟨t, ht, hts2⟩ := List.any_eq_true.mp (hc s hsb)
  obtain ⟨htc, hall⟩ := (Bool.and_eq_true _ _).mp hts2
  have htcc : pyLower t.category = pyLower c.category := by
    rw [beq_iff_eq.mp htc, beq_iff_eq.mp hcat]
  have htc2 : t = c :=
    List.inj_on_of_nodup_map hnd ht hca htcc
  subst htc2
  rw [List.all_eq_true] at hall
  have hx2 : x ∈ s.skills := by rw [hsk]; exact hx
  exact hall x hx2

/-! ### Lemmas: the stable relevance sort -/

theorem insertByKey_perm (key : α → Int) (x : α) (l : List α) :
    (insertByKey key x l).Perm (x :: l) := by
  induction l with
  | nil => exact List.Perm.refl _
  | cons y ys ih =>
      rw [insertByKey]
      cases h : decide (key y < key x) with
      | false => rw [if_neg (of_decide_eq_false h)]
      | true =>
          rw [if_pos (of_decide_eq_true h)]
          exact (ih.cons y).trans (List.Perm.swap x y ys)

theorem pySorted_perm (key : α → Int) (l : List α) : (pySorted key l).Perm l := by
  induction l with
  | nil => exact List.Perm.refl _
  | cons x xs ih => exact (insertByKey_perm key x (pySorted key xs)).trans (ih.cons x)

theorem mem_insertByKey (key : α → Int) (x z : α) (l : List α) :
    z ∈ insertByKey key x l ↔ z = x ∨ z ∈ l := by
  rw [(insertByKey_perm key x l).mem_iff, List.mem_cons]

theorem insertByKey_sorted (key : α → Int) (x : α) (l : List α)
    (hl : List.Pairwise (fun a b => key a ≤ key b) l) :
    List.Pairwise (fun a b => key a ≤ key b) (insertByKey key x l) := by
  induction l with
  | nil => simp [insertByKey]
  | cons y ys ih =>
      rw [List.pairwise_cons] at hl
      rw [insertByKey]
      cases h : decide (key y < key x) with
      | false =>
          rw [if_neg (of_decide_eq_false h)]
          rw [List.pairwise_cons]
          constructor
          · intro z hz
            rcases List.mem_cons.mp hz with hzy | hzys
            · subst hzy
              exact le_of_not_lt (of_decide_eq_false h)
            · exact le_trans (le_of_not_lt (of_decide_eq_false h)) (hl.1 z hzys)
          · exact List.pairwise_cons.mpr hl
      | true =>
          rw [if_pos (of_decide_eq_true h)]
          rw [List.pairwise_cons]
          constructor
          · intro z hz
            rcases (mem_insertByKey key x z ys).mp hz with hzx | hzys
            · subst hzx
              exact le_of_lt (of_decide_eq_true h)
            · exact hl.1 z hzys
          · exact ih hl.2

theorem pySorted_sorted (key : α → Int) (l : List α) :
    List.Pairwise (fun a b => key a ≤ key b) (pySorted key l) := by
  induction l with
  | nil => exact List.Pairwise.nil
  | cons x xs ih => exact insertByKey_sorted key x (pySorted key xs) ih

theorem filter_insertByKey (key : α → Int) (x : α) (l : List α) (k : Int) :
    (insertByKey key x l).filter (fun a => key a == k)
      = if key x == k then x :: l.filter (fun a => key a == k)
        else l.filter (fun a => key a == k) := by
  induction l with
  | nil =>
      rw [insertByKey, List.filter_cons]
  | cons y ys ih =>
      rw [insertByKey]
      cases h : decide (key y < key x) with
      | false =>
          rw [if_neg (of_decide_eq_false h), List.filter_cons]
      | true =>
          rw [if_pos (of_decide_eq_true h), List.filter_cons]
          cases hx : key x == k with
          | true =>
              have hyk : (key y == k) = false := by
                cases hyk2 : key y == k
                · rfl
                · have h1 : key y = k := by
                    have := beq_iff_eq.mp hyk2
                    exact_mod_cast this
                  have h2 : key x = k := by
                    have := beq_iff_eq.mp hx
                    exact_mod_cast this
                  have h3 : key y < key x := of_decide_eq_true h
                  rw [h1, h2] at h3
                  exact absurd h3 (lt_irrefl k)
              rw [hyk, ih, hx]
              simp [List.filter_cons, hyk]
          | false =>
              rw [ih, hx]
              cases hyk : key y == k <;> simp [hyk, List.filter_cons]

theorem pySorted_stable (key : α → Int) (l : List α) (k : Int) :
    (pySorted key l).filter (fun a => key a == k) = l.filter (fun a => key a == k) := by
  induction l with
  | nil => rfl
  | cons x xs ih =>
      rw [pySorted, filter_insertByKey, List.filter_cons]
      cases hx : key x == k <;> simp [hx, ih]

/-! ### Lemmas: date arithmetic -/

theorem setMonths_sum (total : Int) :
    12 * (setMonths total).1 + (setMonths total).2 = total := by
  rw [setMonths]
  by_cases h : 11 < total.natAbs
  · rw [if_pos h]
    by_cases hs : (0 : Int) ≤ total
    · rw [if_pos hs]
      simp only [mul_one]
      omega
    · rw [if_neg hs]
      have h1 : total * -1 = -total := by ring
      simp only [h1]
      omega
  · rw [if_neg h]
    simp

theorem datediff_years_eq (today : PyDate) (ds de : String) (e s : PyDate)
    (he : parse_date today de = Except.ok e) (hs : parse_date today ds = Except.ok s) :
    datediff_years today ds de
      = Except.ok (((setMonths (relativedeltaMonths e s)).1 : ℚ)
          + ((setMonths (relativedeltaMonths e s)).2 : ℚ) / 12) := by
  simp only [datediff_years, he, hs]
  rfl

theorem datediff_years_no_day_fraction (today : PyDate) (ds de : String) (e s : PyDate)
    (he : parse_date today de = Except.ok e) (hs : parse_date today ds = Except.ok s) :
    datediff_years today ds de
      = Except.ok (((relativedeltaMonths e s : ℤ) : ℚ) / 12) := by
  rw [datediff_years_eq today ds de e s he hs]
  congr 1
  have hsum := setMonths_sum (relativedeltaMonths e s)
  have h2 : ((12 * (setMonths (relativedeltaMonths e s)).1
      + (setMonths (relativedeltaMonths e s)).2 : ℤ) : ℚ)
      = ((relativedeltaMonths e s : ℤ) : ℚ) := by exact_mod_cast congrArg Int.cast hsum
  push_cast at h2
  field_simp
  linarith

theorem cumulativeGo_spec (today : PyDate) (titles : List Title) (qs : List ℚ)
    (h : titleDiffs today titles = Except.ok qs) :
    ∀ acc last, cumulativeGo today last acc titles = Except.ok (acc + qs.sum) := by
  induction titles generalizing qs with
  | nil =>
      intro acc last
      rw [titleDiffs] at h
      simp only [Except.ok.injEq] at h
      subst h
      simp [cumulativeGo]
  | cons t rest ih =>
      intro acc last
      rw [titleDiffs] at h
      cases hft : titleDiff today t with
      | error e => rw [hft] at h; simp at h
      | ok q =>
          cases htr : titleDiffs today rest with
          | error e2 => rw [hft, htr] at h; simp at h
          | ok qs2 =>
              rw [hft, htr] at h
              simp only [Except.ok.injEq] at h
              subst h
              cases hsd : t.startdate with
              | none => simp only [titleDiff, hsd] at hft; exact absurd hft (by simp)
              | some sd =>
                  cases hed : t.enddate with
                  | none => simp only [titleDiff, hsd, hed] at hft; exact absurd hft (by simp)
                  | some ed =>
                      simp only [titleDiff, hsd, hed] at hft
                      cases hdd : datediff_years today sd (substEnd today ed) with
                      | error e3 => rw [hdd] at hft; simp at hft
                      | ok q2 =>
                          rw [hdd] at hft
                          simp only [Except.ok.injEq] at hft
                          subst hft
                          simp only [cumulativeGo, hsd, hed, hdd]
                          rw [ih qs2 htr (acc + q2) (some (substEnd today ed))]
                          rw [List.sum_cons, add_assoc]

theorem get_cumulative_spec (today : PyDate) (titles : List Title) (qs : List ℚ)
    (h : titleDiffs today titles = Except.ok qs) :
    get_cumulative_time_from_titles today titles = Except.ok (pyRound qs.sum) := by
  rw [get_cumulative_time_from_titles, cumulativeGo_spec today titles qs h 0 none]
  rw [Except.map]
  rw [zero_add]

/-! ### Lemmas: the heap model of experience rewriting -/

theorem modifyIdx_length (f : α → α) (j : Nat) (l : List α) :
    (modifyIdx f j l).length = l.length := by
  induction l generalizing j with
  | nil => cases j <;> rfl
  | cons x xs ih =>
      cases j with
      | zero => rfl
      | succ j2 => simp [modifyIdx, ih]

theorem modifyIdx_getElem_ne (f : α → α) (j i : Nat) (l : List α) (h : i ≠ j) :
    (modifyIdx f j l)[i]? = l[i]? := by
  induction l generalizing i j with
  | nil => cases j <;> rfl
  | cons x xs ih =>
      cases j with
      | zero =>
          cases i with
          | zero => exact absurd rfl h
          | succ i2 => simp [modifyIdx]
      | succ j2 =>
          cases i with
          | zero => simp [modifyIdx]
          | succ i2 =>
              simp only [modifyIdx, List.getElem?_cons_succ]
              exact ih j2 i2 (fun he => h (by rw [he]))

theorem modifyIdx_getElem_eq (f : α → α) (j : Nat) (l : List α) :
    (modifyIdx f j l)[j]? = l[j]?.map f := by
  induction l generalizing j with
  | nil => cases j <;> rfl
  | cons x xs ih =>
      cases j with
      | zero => simp [modifyIdx]
      | succ j2 => simp [modifyIdx, ih]

theorem rewriteExpStep_addr (rw2 : String → List String) (dflt : Experience ρ)
    (h : List (Experience ρ)) (a : Nat) :
    (rewriteExpStep rw2 dflt h a).2 = h.length := by
  unfold rewriteExpStep
  simp

theorem rewriteExpStep_length (rw2 : String → List String) (dflt : Experience ρ)
    (h : List (Experience ρ)) (a : Nat) :
    (rewriteExpStep rw2 dflt h a).1.length = h.length + 1 := by
  unfold rewriteExpStep
  cases hu : (h.getD a dflt).unedited with
  | none =>
      simp only [hu, assignHighlights, heapWrite, modifyIdx_length]
      simp
  | some s =>
      by_cases hs : s = ""
      · simp only [hu, assignHighlights, heapWrite, if_pos hs, modifyIdx_length]
        simp
      · simp only [hu, assignHighlights, heapWrite, if_neg hs, modifyIdx_length]
        simp

theorem rewriteExpStep_frame (rw2 : String → List String) (dflt : Experience ρ)
    (h : List (Experience ρ)) (a : Nat) (i : Nat) (hi : i < h.length) :
    (rewriteExpStep rw2 dflt h a).1[i]? = h[i]? := by
  have hne : i ≠ (h ++ [h.getD a dflt]).length - 1 := by
    simp only [List.length_append, List.length_cons, List.length_nil]
    omega
  have hbase : (h ++ [h.getD a dflt])[i]? = h[i]? := by
    rw [List.getElem?_append, if_pos hi]
  unfold rewriteExpStep
  cases hu : (h.getD a dflt).unedited with
  | none =>
      simp only [hu, assignHighlights, heapWrite]
      rw [modifyIdx_getElem_ne _ _ _ _ hne, hbase]
  | some s =>
      by_cases hs : s = ""
      · simp only [hu, assignHighlights, heapWrite, if_pos hs]
        rw [modifyIdx_getElem_ne _ _ _ _ hne, hbase]
      · simp only [hu, assignHighlights, heapWrite, if_neg hs]
        rw [modifyIdx_getElem_ne _ _ _ _ hne, modifyIdx_getElem_ne _ _ _ _ hne, hbase]

theorem rewriteExpStep_cell (rw2 : String → List String) (dflt : Experience ρ)
    (h : List (Experience ρ)) (a : Nat) :
    ∃ e : Experience ρ,
      (rewriteExpStep rw2 dflt h a).1[h.length]? = some e ∧ e.unedited = none := by
  have hbase : (h ++ [h.getD a dflt])[h.length]? = some (h.getD a dflt) := by
    rw [List.getElem?_append, if_neg (by omega)]
    simp
  have hlen : (h ++ [h.getD a dflt]).length - 1 = h.length := by
    simp only [List.length_append, List.length_cons, List.length_nil]
    omega
  unfold rewriteExpStep
  cases hu : (h.getD a dflt).unedited with
  | none =>
      simp only [hu, assignHighlights, heapWrite]
      refine ⟨{ h.getD a dflt with unedited := none }, ?_, rfl⟩
      rw [hlen, modifyIdx_getElem_eq, hbase]
      rfl
  | some s =>
      by_cases hs : s = ""
      · simp only [hu, assignHighlights, heapWrite, if_pos hs]
        refine ⟨{ h.getD a dflt with unedited := none }, ?_, rfl⟩
        rw [hlen, modifyIdx_getElem_eq, hbase]
        rfl
      · simp only [hu, assignHighlights, heapWrite, if_neg hs]
        refine ⟨{ h.getD a dflt with unedited := none, highlights := some (rw2 s) }, ?_, rfl⟩
        rw [hlen, modifyIdx_getElem_eq, modifyIdx_getElem_eq, hbase]
        rfl

theorem rewriteExpLoop_length_mono (rw2 : String → List String) (dflt : Experience ρ)
    (h : List (Experience ρ)) (addrs : List Nat) :
    h.length ≤ (rewriteExpLoop rw2 dflt h addrs).1.length := by
  induction addrs generalizing h with
  | nil => exact Nat.le_refl _
  | cons a rest ih =>
      simp only [rewriteExpLoop]
      calc h.length ≤ (rewriteExpStep rw2 dflt h a).1.length := by
            rw [rewriteExpStep_length]; omega
        _ ≤ _ := ih _

theorem rewriteExpLoop_frame (rw2 : String → List String) (dflt : Experience ρ)
    (h : List (Experience ρ)) (addrs : List Nat) (i : Nat) (hi : i < h.length) :
    (rewriteExpLoop rw2 dflt h addrs).1[i]? = h[i]? := by
  induction addrs generalizing h with
  | nil => rfl
  | cons a rest ih =>
      simp only [rewriteExpLoop]
      have hi2 : i < (rewriteExpStep rw2 dflt h a).1.length := by
        rw [rewriteExpStep_length]; omega
      rw [ih _ hi2, rewriteExpStep_frame rw2 dflt h a i hi]

theorem rewriteExpLoop_count (rw2 : String → List String) (dflt : Experience ρ)
    (h : List (Experience ρ)) (addrs : List Nat) :
    (rewriteExpLoop rw2 dflt h addrs).2.length = addrs.length := by
  induction addrs generalizing h with
  | nil => rfl
  | cons a rest ih => simp [rewriteExpLoop, ih]

theorem rewriteExpLoop_results (rw2 : String → List String) (dflt : Experience ρ)
    (h : List (Experience ρ)) (addrs : List Nat) :
    ∀ a ∈ (rewriteExpLoop rw2 dflt h addrs).2, ∃ e : Experience ρ,
      (rewriteExpLoop rw2 dflt h addrs).1[a]? = some e ∧ e.unedited = none := by
  induction addrs generalizing h with
  | nil => intro a ha; exact absurd ha (List.not_mem_nil a)
  | cons a0 rest ih =>
      intro a ha
      simp only [rewriteExpLoop] at ha ⊢
      rcases List.mem_cons.mp ha with h1 | h2
      · subst h1
        obtain ⟨e, he, hu⟩ := rewriteExpStep_cell rw2 dflt h a0
        refine ⟨e, ?_, hu⟩
        rw [rewriteExpStep_addr]
        have hlt : h.length < (rewriteExpStep rw2 dflt h a0).1.length := by
          rw [rewriteExpStep_length]; omega
        rw [rewriteExpLoop_frame rw2 dflt _ rest h.length hlt]
        exact he
      · exact ih _ a h2

/-! ### Claim theorems -/

/-- Claim C1, counterexample: calling `parse_job_post` a second time after a
successful first call is not free — it issues new chain invocations (the
call counter grows), contradicting the claim that the second call returns
the stored record without new LLM calls. -/
theorem parse_job_post_second_call_not_cached :
    ¬((parse_job_post ⟨fun _ => ⟨[]⟩, fun _ => ⟨[], []⟩⟩
          (parse_job_post ⟨fun _ => ⟨[]⟩, fun _ => ⟨[], []⟩⟩ (JobPost.init "p")).1).1.llm_calls
        = (parse_job_post ⟨fun _ => ⟨[]⟩, fun _ => ⟨[], []⟩⟩ (JobPost.init "p")).1.llm_calls) := by
  decide

/-- Claim C1 (corrected): `parse_job_post` itself always re-runs the two
extraction chains (two new `predict` invocations) and overwrites the stored
record; the memoization the spec describes lives in `Resume_Builder.__init__`,
which invokes `parse_job_post` only when `parsed_job` is not already set and
issues no LLM call otherwise. -/
theorem parse_job_post_rerun_and_init_memoization :
    (∀ (env : ChainEnv) (jp : JobPost),
        (parse_job_post env jp).1.llm_calls = jp.llm_calls + 2 ∧
        (parse_job_post env jp).1.parsed_job = some (parse_job_post env jp).2) ∧
    (∀ (env : ChainEnv) (jp : JobPost) (r : JobRecord),
        jp.parsed_job = some r → builder_init_job_post env jp = jp) ∧
    (∀ (env : ChainEnv) (jp : JobPost),
        jp.parsed_job = none → builder_init_job_post env jp = (parse_job_post env jp).1) := by
  refine ⟨fun env jp => ⟨rfl, rfl⟩, fun env jp r h => ?_, fun env jp h => ?_⟩
  · unfold builder_init_job_post
    rw [h]
  · unfold builder_init_job_post
    rw [h]

/-- Witness for C1 at a concrete already-parsed job post. -/
theorem parse_job_post_rerun_and_init_memoization_witness :
    ({ posting := "p", parsed_job := some ⟨⟨[]⟩, ⟨[], []⟩⟩, llm_calls := 2 } : JobPost).parsed_job
        = some ⟨⟨[]⟩, ⟨[], []⟩⟩ ∧
    builder_init_job_post ⟨fun _ => ⟨[]⟩, fun _ => ⟨[], []⟩⟩
        { posting := "p", parsed_job := some ⟨⟨[]⟩, ⟨[], []⟩⟩, llm_calls := 2 }
      = { posting := "p", parsed_job := some ⟨⟨[]⟩, ⟨[], []⟩⟩, llm_calls := 2 } :=
  ⟨rfl, parse_job_post_rerun_and_init_memoization.2.1 _ _ ⟨⟨[]⟩, ⟨[], []⟩⟩ rfl⟩

/-- Claim C2, counterexample: on the single title 2020-01-01 … 2022-07-01 the
code returns 2, not the 3 the claim asserts, because Python `round` rounds
the tie 2.5 to the even integer. -/
theorem cumulative_time_example_rounds_to_two :
    get_cumulative_time_from_titles ⟨2026, 10, 12⟩
        [⟨some "2020-01-01", some "2022-07-01"⟩] = Except.ok 2 ∧
    ¬(get_cumulative_time_from_titles ⟨2026, 10, 12⟩
        [⟨some "2020-01-01", some "2022-07-01"⟩] = Except.ok 3) := by
  have h1 : get_cumulative_time_from_titles ⟨2026, 10, 12⟩
      [⟨some "2020-01-01", some "2022-07-01"⟩]
      = Except.ok (pyRound (0 + (((2 : ℤ) : ℚ) + ((6 : ℤ) : ℚ) / 12))) := rfl
  have h2 : get_cumulative_time_from_titles ⟨2026, 10, 12⟩
      [⟨some "2020-01-01", some "2022-07-01"⟩] = Except.ok 2 := by
    rw [h1]
    unfold pyRound
    norm_num
  exact ⟨h2, by rw [h2]; simp⟩

/-- Claim C2 (corrected): for titles that all carry parseable `startdate` and
`enddate` (with `"current"` replaced by the formatted current date), the code
sums the per-title fractional years and applies Python `round`, which rounds
ties to the nearest even integer — not half-up — so the documented example
yields 2, not 3. -/
theorem cumulative_time_sums_and_rounds_half_even :
    (∀ (today : PyDate) (titles : List Title) (qs : List ℚ),
        titleDiffs today titles = Except.ok qs →
        get_cumulative_time_from_titles today titles = Except.ok (pyRound qs.sum)) ∧
    pyRound (5 / 2 : ℚ) = 2 ∧ pyRound (7 / 2 : ℚ) = 4 ∧
    get_cumulative_time_from_titles ⟨2026, 10, 12⟩
        [⟨some "2020-01-01", some "2022-07-01"⟩] = Except.ok 2 := by
  refine ⟨get_cumulative_spec, ?_, ?_, ?_⟩
  · unfold pyRound
    norm_num
  · unfold pyRound
    norm_num
  · have h1 : get_cumulative_time_from_titles ⟨2026, 10, 12⟩
        [⟨some "2020-01-01", some "2022-07-01"⟩]
        = Except.ok (pyRound (0 + (((2 : ℤ) : ℚ) + ((6 : ℤ) : ℚ) / 12))) := rfl
    rw [h1]
    unfold pyRound
    norm_num

/-- Witness for C2 on a concrete title list whose diffs evaluate. -/
theorem cumulative_time_sums_and_rounds_half_even_witness :
    titleDiffs ⟨2026, 10, 12⟩ [⟨some "2020-01-01", some "2022-07-01"⟩]
        = Except.ok [((2 : ℤ) : ℚ) + ((6 : ℤ) : ℚ) / 12] ∧
    get_cumulative_time_from_titles ⟨2026, 10, 12⟩
        [⟨some "2020-01-01", some "2022-07-01"⟩]
      = Except.ok (pyRound ([((2 : ℤ) : ℚ) + ((6 : ℤ) : ℚ) / 12].sum)) :=
  ⟨rfl, cumulative_time_sums_and_rounds_half_even.1 _ _ _ rfl⟩

/-- Claim C3, counterexample: idempotence under case-insensitive containment
fails when the target list holds two categories with the same lowercase name —
the merge matches the later category (the dict keeps the last index), so a
skill already present in the earlier category is appended again. -/
theorem combine_skill_lists_idem_fails_with_duplicate_categories :
    containedCI [⟨"a", ["x"]⟩] [⟨"A", ["x"]⟩, ⟨"a", []⟩] = true ∧
    combine_skill_lists [⟨"A", ["x"]⟩, ⟨"a", []⟩] [⟨"a", ["x"]⟩]
      ≠ [⟨"A", ["x"]⟩, ⟨"a", []⟩] := by
  constructor
  · decide
  · decide

/-- Claim C3 (corrected): the merge matches categories case-insensitively
(the last category of each lowercase name receives the merged skills, all
other entries pass through untouched, and unmatched incoming categories are
appended whole, in order); the merge is associative; and it is idempotent
when the incoming list is contained case-insensitively in the target,
provided the target has at most one category per lowercase name. -/
theorem combine_skill_lists_merge_spec :
    (∀ l1 l2 : List SkillCat,
        combine_skill_lists l1 l2
          = updCats (fun n => bucket n l2) l1 ++ newCats l1 l2) ∧
    (∀ a b c : List SkillCat,
        combine_skill_lists (combine_skill_lists a b) c
          = combine_skill_lists a (combine_skill_lists b c)) ∧
    (∀ a b : List SkillCat, nodupNames a → containedCI b a = true →
        combine_skill_lists a b = a) :=
  ⟨combine_skill_lists_rep, combine_skill_lists_assoc, combine_skill_lists_idem⟩

/-- Witness for C3 at a concrete contained merge. -/
theorem combine_skill_lists_merge_spec_witness :
    nodupNames [⟨"A", ["x"]⟩] ∧ containedCI [⟨"a", ["X"]⟩] [⟨"A", ["x"]⟩] = true ∧
    combine_skill_lists [⟨"A", ["x"]⟩] [⟨"a", ["X"]⟩] = [⟨"A", ["x"]⟩] :=
  ⟨by unfold nodupNames; decide, by decide,
    combine_skill_lists_merge_spec.2.2 _ _ (by unfold nodupNames; decide) (by decide)⟩

/-- Claim C5, counterexample: `suggest_improvements` keeps only the
`improvements` field of the improvement chain; a nonempty
`missing_requirements` list vanishes from the returned report. -/
theorem suggest_improvements_drops_missing_requirements :
    suggest_improvements ⟨["Kubernetes"], []⟩ ⟨[]⟩
      = [ReportEntry.labeled "Language improvements" []] ∧
    ReportEntry.text "Kubernetes" ∉ suggest_improvements ⟨["Kubernetes"], []⟩ ⟨[]⟩ := by
  constructor
  · rfl
  · decide

/-- Claim C5 (corrected): the report consists of the `improvements` list
followed by one final labeled entry holding every language fix formatted as
`error -> fix`; the `missing_requirements` list of the improvement chain is
discarded. -/
theorem suggest_improvements_keeps_improvements_and_fixes :
    ∀ (imp : ResumeImprovements) (lang : LanguageImprovements),
      suggest_improvements imp lang
        = imp.improvements.map ReportEntry.text
          ++ [ReportEntry.labeled "Language improvements"
                (lang.fixes.map formatLanguageFix)] ∧
      (∀ x ∈ imp.improvements, ReportEntry.text x ∈ suggest_improvements imp lang) ∧
      (suggest_improvements imp lang).length = imp.improvements.length + 1 ∧
      (suggest_improvements imp lang).getLast?
        = some (ReportEntry.labeled "Language improvements"
            (lang.fixes.map formatLanguageFix)) := by
  intro imp lang
  refine ⟨rfl, fun x hx => ?_, by simp [suggest_improvements], ?_⟩
  · exact List.mem_append_left _ (List.mem_map_of_mem ReportEntry.text hx)
  · rw [suggest_improvements, List.getLast?_concat]

/-- Witness for C5 at a concrete improvement list. -/
theorem suggest_improvements_keeps_improvements_and_fixes_witness :
    "Add X" ∈ ["Add X"] ∧
    ReportEntry.text "Add X" ∈ suggest_improvements ⟨[], ["Add X"]⟩ ⟨[]⟩ :=
  ⟨by decide,
    (suggest_improvements_keeps_improvements_and_fixes ⟨[], ["Add X"]⟩ ⟨[]⟩).2.1
      "Add X" (by decide)⟩

/-- Claim C9 (confirmed): skill deduplication tests incoming items only
against the lowercase set of the target list as it was before the merge
began, so two case variants of a new skill are both appended and a merged
category can contain case-insensitive duplicates. -/
theorem combine_skills_dedup_pre_merge_only :
    (∀ l1 l2 : List String,
        combine_skills_in_category l1 l2
          = l1 ++ l2.filter (fun i => !(lowerSet l1).contains (pyLower i))) ∧
    combine_skill_lists [⟨"Langs", []⟩] [⟨"langs", ["Python", "python"]⟩]
      = [⟨"Langs", ["Python", "python"]⟩] ∧
    pyLower "Python" = pyLower "python" :=
  ⟨combine_skills_eq_cmb, by decide, by decide⟩

/-- Claim C4 (confirmed): `rewrite_section` strips the relevance scores after
a stable descending sort on relevance — the sorted list is a permutation of
the chain output, pairwise descending, items of equal relevance keep their
original relative order, and ratings [5,3,5,1] come out as [5,5,3,1]. -/
theorem rewrite_section_sorts_stably :
    (∀ items : List ResumeItem,
        rewrite_section items
          = (pySorted (fun d => d.relevance * -1) items).map ResumeItem.item) ∧
    (∀ items : List ResumeItem,
        (pySorted (fun d => d.relevance * -1) items).Perm items) ∧
    (∀ items : List ResumeItem,
        List.Pairwise (fun a b => b.relevance ≤ a.relevance)
          (pySorted (fun d => d.relevance * -1) items)) ∧
    (∀ (items : List ResumeItem) (k : Int),
        (pySorted (fun d => d.relevance * -1) items).filter (fun d => d.relevance == k)
          = items.filter (fun d => d.relevance == k)) ∧
    rewrite_section [⟨"a", 5⟩, ⟨"b", 3⟩, ⟨"c", 5⟩, ⟨"d", 1⟩] = ["a", "c", "b", "d"] := by
  refine ⟨fun items => rfl, fun items => pySorted_perm _ items, fun items => ?_,
    fun items k => ?_, by decide⟩
  · refine (pySorted_sorted (fun d => d.relevance * -1) items).imp ?_
    intro a b h
    simp only at h
    omega
  · have hpt : ∀ l : List ResumeItem,
        l.filter (fun d => d.relevance == k)
          = l.filter (fun d => d.relevance * -1 == k * -1) := by
      intro l
      apply List.filter_congr
      intro d _
      rw [Bool.eq_iff_iff, beq_iff_eq, beq_iff_eq]
      omega
    rw [hpt, hpt, pySorted_stable (fun d => d.relevance * -1) items (k * -1)]

/-- Claim C6 (confirmed): `datediff_years` equals the whole-year difference
plus the extra months over 12 as computed by `relativedelta`, always a whole
number of months over 12 with no day-level fraction, and the documented
example evaluates to 2.5. -/
theorem datediff_years_whole_months :
    (∀ (today : PyDate) (ds de : String) (e s : PyDate),
        parse_date today de = Except.ok e → parse_date today ds = Except.ok s →
        datediff_years today ds de
          = Except.ok (((setMonths (relativedeltaMonths e s)).1 : ℚ)
              + ((setMonths (relativedeltaMonths e s)).2 : ℚ) / 12) ∧
        datediff_years today ds de
          = Except.ok (((relativedeltaMonths e s : ℤ) : ℚ) / 12)) ∧
    (∀ today : PyDate,
        datediff_years today "2020-01-01" "2022-07-01" = Except.ok (5 / 2 : ℚ)) := by
  refine ⟨fun today ds de e s he hs =>
    ⟨datediff_years_eq today ds de e s he hs,
     datediff_years_no_day_fraction today ds de e s he hs⟩, fun today => ?_⟩
  have h1 : datediff_years today "2020-01-01" "2022-07-01"
      = Except.ok (((2 : ℤ) : ℚ) + ((6 : ℤ) : ℚ) / 12) := rfl
  rw [h1]
  simp only [Except.ok.injEq]
  norm_num

/-- Witness for C6 at the documented example dates. -/
theorem datediff_years_whole_months_witness :
    parse_date ⟨2026, 10, 12⟩ "2022-07-01" = Except.ok ⟨2022, 7, 1⟩ ∧
    parse_date ⟨2026, 10, 12⟩ "2020-01-01" = Except.ok ⟨2020, 1, 1⟩ ∧
    datediff_years ⟨2026, 10, 12⟩ "2020-01-01" "2022-07-01"
      = Except.ok (((relativedeltaMonths ⟨2022, 7, 1⟩ ⟨2020, 1, 1⟩ : ℤ) : ℚ) / 12) :=
  ⟨by decide, by decide,
    (datediff_years_whole_months.1 ⟨2026, 10, 12⟩ "2020-01-01" "2022-07-01"
      ⟨2022, 7, 1⟩ ⟨2020, 1, 1⟩ (by decide) (by decide)).2⟩

/-- Claim C7 (confirmed): `parse_date` fills every component the string does
not determine from the default January 1 of the current year, so
`"March 2021"` parses to 2021-03-01; an unparseable string raises the parse
error carrying the offending input, which is logged and re-raised, never
swallowed. -/
theorem parse_date_defaults_and_errors :
    (∀ (today : PyDate) (s : String) (p : PartialDate),
        dateutilParse s = some p →
        parse_date today s
          = Except.ok ⟨p.year.getD today.year, p.month.getD 1, p.day.getD 1⟩) ∧
    (∀ (today : PyDate) (s : String),
        dateutilParse s = none →
        parse_date today s = Except.error (DateErr.parserError s)) ∧
    (∀ today : PyDate, parse_date today "March 2021" = Except.ok ⟨2021, 3, 1⟩) ∧
    (∀ today : PyDate,
        parse_date today "not a date"
          = Except.error (DateErr.parserError "not a date")) := by
  refine ⟨fun today s p h => ?_, fun today s h => ?_, fun today => rfl, fun today => rfl⟩
  · unfold parse_date
    rw [h]
  · unfold parse_date
    rw [h]

/-- Witness for C7 at a month-name date and an unparseable string. -/
theorem parse_date_defaults_and_errors_witness :
    dateutilParse "March 2021" = some ⟨some 2021, some 3, none⟩ ∧
    parse_date ⟨2026, 10, 12⟩ "March 2021" = Except.ok ⟨2021, 3, 1⟩ ∧
    dateutilParse "definitely bogus" = none ∧
    parse_date ⟨2026, 10, 12⟩ "definitely bogus"
      = Except.error (DateErr.parserError "definitely bogus") :=
  ⟨by decide,
    parse_date_defaults_and_errors.1 ⟨2026, 10, 12⟩ "March 2021"
      ⟨some 2021, some 3, none⟩ (by decide),
    by decide,
    parse_date_defaults_and_errors.2.1 ⟨2026, 10, 12⟩ "definitely bogus" (by decide)⟩

/-- Claim C8, counterexample: a record whose `unedited` value is the empty
string is neither rewritten (its highlights are untouched) nor passed
through unchanged (the `unedited` key is still popped), so the claimed
dichotomy fails. -/
theorem rewrite_unedited_empty_string_not_unchanged :
    rewrite_unedited_experiences (fun s => [s ++ "!"])
        [({ unedited := some "", highlights := some ["h"], rest := () } : Experience Unit)]
      ≠ [{ unedited := some "", highlights := some ["h"], rest := () }] ∧
    ((rewrite_unedited_experiences (fun s => [s ++ "!"])
        [({ unedited := some "", highlights := some ["h"], rest := () } : Experience Unit)]).head?.map
      (fun e => e.highlights)) ≠ some (some ["" ++ "!"]) := by
  constructor
  · decide
  · decide

/-- Claim C8 (corrected): records with a nonempty `unedited` block get their
highlights replaced by the rewritten section and the `unedited` key removed;
records without the key pass through unchanged; records whose `unedited`
value is the empty string are not rewritten but still lose the key; the
output keeps one record per input in the original order. -/
theorem rewrite_unedited_experiences_spec {ρ : Type} (rw2 : String → List String)
    (raws : List (Experience ρ)) :
    (rewrite_unedited_experiences rw2 raws).length = raws.length ∧
    (∀ i : Nat, (rewrite_unedited_experiences rw2 raws)[i]?
        = (raws[i]?).map (rewriteOneExperience rw2)) ∧
    (∀ r : Experience ρ, r.unedited = none → rewriteOneExperience rw2 r = r) ∧
    (∀ (r : Experience ρ) (s : String), r.unedited = some s → s ≠ "" →
        rewriteOneExperience rw2 r
          = { r with unedited := none, highlights := some (rw2 s) }) ∧
    (∀ r : Experience ρ, r.unedited = some "" →
        rewriteOneExperience rw2 r = { r with unedited := none }) := by
  refine ⟨by simp [rewrite_unedited_experiences],
    fun i => by simp [rewrite_unedited_experiences],
    fun r h => ?_, fun r s h hs => ?_, fun r h => ?_⟩
  · obtain ⟨u, hl, rs⟩ := r
    change u = none at h
    subst h
    rfl
  · obtain ⟨u, hl, rs⟩ := r
    change u = some s at h
    subst h
    simp only [rewriteOneExperience, popAndRewrite, if_neg hs]
  · obtain ⟨u, hl, rs⟩ := r
    change u = some "" at h
    subst h
    simp [rewriteOneExperience, popAndRewrite]

/-- Witness for C8 on concrete records of each kind. -/
theorem rewrite_unedited_experiences_spec_witness :
    rewriteOneExperience (fun s => [s])
        ({ unedited := none, highlights := some ["h"], rest := () } : Experience Unit)
      = { unedited := none, highlights := some ["h"], rest := () } ∧
    rewriteOneExperience (fun s => [s])
        ({ unedited := some "u", highlights := some ["h"], rest := () } : Experience Unit)
      = { unedited := none, highlights := some ["u"], rest := () } :=
  ⟨(rewrite_unedited_experiences_spec (fun s => [s]) ([] : List (Experience Unit))).2.2.1
      _ rfl,
    (rewrite_unedited_experiences_spec (fun s => [s]) ([] : List (Experience Unit))).2.2.2.1
      _ "u" rfl (by decide)⟩

/-- Claim C10 (confirmed): the heap model of `rewrite_unedited_experiences`
never writes to the cells of the raw experience records — every write lands
on a freshly allocated shallow copy — so the stored raw list is unchanged;
the result has exactly one record per raw experience, and every returned
record has the `unedited` key removed. -/
theorem rewrite_unedited_heap_frame {ρ : Type} (rw2 : String → List String)
    (dflt : Experience ρ) (h0 : List (Experience ρ)) (addrs : List Nat) :
    (∀ i : Nat, i < h0.length →
        (rewriteExpLoop rw2 dflt h0 addrs).1[i]? = h0[i]?) ∧
    (rewriteExpLoop rw2 dflt h0 addrs).2.length = addrs.length ∧
    (∀ a ∈ (rewriteExpLoop rw2 dflt h0 addrs).2, ∃ e : Experience ρ,
        (rewriteExpLoop rw2 dflt h0 addrs).1[a]? = some e ∧ e.unedited = none) :=
  ⟨fun i hi => rewriteExpLoop_frame rw2 dflt h0 addrs i hi,
    rewriteExpLoop_count rw2 dflt h0 addrs,
    rewriteExpLoop_results rw2 dflt h0 addrs⟩

/-- Witness for C10 on a one-record heap. -/
theorem rewrite_unedited_heap_frame_witness :
    (0 : Nat) < ([({ unedited := some "u", highlights := none, rest := () } : Experience Unit)]).length ∧
    (rewriteExpLoop (fun s => [s]) ⟨none, none, ()⟩
        [({ unedited := some "u", highlights := none, rest := () } : Experience Unit)] [0]).1[0]?
      = [({ unedited := some "u", highlights := none, rest := () } : Experience Unit)][0]? :=
  ⟨by decide,
    (rewrite_unedited_heap_frame (fun s => [s]) ⟨none, none, ()⟩
        [({ unedited := some "u", highlights := none, rest := () } : Experience Unit)] [0]).1
      0 (by decide)⟩
